import Mathlib

/-!
Shallow embedding of the memory-management core of the `oxide` inference
engine, covering the prefix cache (`src/inference/prefix_cache.rs`) and the
paged key/value cache (declared in `src/inference/mod.rs`).

Modelling conventions:
- `HashMap<CacheKey, Arc<CachedPrefix>>` is modelled as an association list
  with HashMap semantics (`insertEntry` replaces an existing binding,
  `findEntry` looks a key up, `removeEntry` deletes a binding).
- `usize`/`u64`/`u32` are modelled as `Nat`; the only subtraction in the
  source is `usize::saturating_sub`, which is exactly `Nat` subtraction.
- `std::time::Instant::now()` is an effect; it is modelled by passing the
  clock reading `now` explicitly to `insert`.
- `candle_core::Tensor` is opaque to the cache logic and is modelled by an
  identifier.
-/

namespace Oxide

/-- `HashMap::get` on an association list: first binding with the key. -/
def findEntry {α β : Type} [DecidableEq α] : List (α × β) → α → Option β
  | [], _ => none
  | (a, b) :: t, k => if a = k then some b else findEntry t k

/-- `HashMap::insert` on an association list: replace the binding if the
key is present, otherwise append a new binding. -/
def insertEntry {α β : Type} [DecidableEq α] : List (α × β) → α → β → List (α × β)
  | [], k, v => [(k, v)]
  | (a, b) :: t, k, v => if a = k then (k, v) :: t else (a, b) :: insertEntry t k v

/-- `HashMap::remove` on an association list: drop the binding with the
key, if present. -/
def removeEntry {α β : Type} [DecidableEq α] : List (α × β) → α → List (α × β)
  | [], _ => []
  | (a, b) :: t, k => if a = k then t else (a, b) :: removeEntry t k

/-- `Vec::iter().position(|k| k == key)`: index of the first occurrence. -/
def positionOf {α : Type} [DecidableEq α] : List α → α → Option Nat
  | [], _ => none
  | a :: t, k => if a = k then some 0 else (positionOf t k).map (fun i => i + 1)

/-- Stand-in for `std::collections::hash_map::DefaultHasher` as used by
`CacheKey::hash_string` (SipHash-1-3 with fixed keys): a fixed,
deterministic 64-bit function of the string.  The hashing mixer lives in
the Rust standard library, outside this repository; every verified claim
about `CacheKey` depends only on `hash_string` being one deterministic
function, never on particular hash values. -/
def hashString (s : String) : Nat :=
  s.data.foldl (fun h c => (h * 31 + c.toNat) % (2 ^ 64)) 5381

/-- `CacheKey`: three independent 64-bit hashes (prompt, system prompt,
model configuration). -/
structure CacheKey where
  prompt_hash : Nat
  system_hash : Nat
  model_config_hash : Nat
deriving DecidableEq

/-- `CacheKey::new(prompt, system_prompt, model_config)`: hashes the prompt,
the system prompt defaulted to the empty string (`unwrap_or("")`), and the
model configuration string. -/
def CacheKey.new (prompt : String) (system_prompt : Option String)
    (model_config : String) : CacheKey :=
  { prompt_hash := hashString prompt
    system_hash := hashString (system_prompt.getD "")
    model_config_hash := hashString model_config }

/-- `CachedLayer` holds the two per-layer `Tensor`s; tensors are opaque to
the cache logic and are modelled by identifiers. -/
structure CachedLayer where
  k_cache : Nat
  v_cache : Nat
deriving DecidableEq

/-- `CachedPrefix`: a cached entry (key, token list, key/value layers,
access counter, last-access instant). -/
structure CachedPrefix where
  key : CacheKey
  tokens : List Nat
  kv_cache : List CachedLayer
  access_count : Nat
  last_access : Nat
deriving DecidableEq

/-- `PrefixCacheConfig`: memory budget in MB and the enable flag. -/
structure PrefixCacheConfig where
  memory_budget_mb : Nat
  enabled : Bool
deriving DecidableEq

/-- `PrefixCache`: the cache table, the recency ordering (oldest first),
and the memory accounting. -/
structure PrefixCache where
  config : PrefixCacheConfig
  cache : List (CacheKey × CachedPrefix)
  access_order : List CacheKey
  current_memory_bytes : Nat
  memory_budget_bytes : Nat
deriving DecidableEq

/-- `PrefixCache::new(config)`. -/
def PrefixCache.new (config : PrefixCacheConfig) : PrefixCache :=
  { config := config
    cache := []
    access_order := []
    current_memory_bytes := 0
    memory_budget_bytes := config.memory_budget_mb * 1024 * 1024 }

/-- `PrefixCache::get(&self, key)`: returns the looked-up entry and the
(unchanged, since the receiver is `&self`) cache state. -/
def PrefixCache.get (s : PrefixCache) (key : CacheKey) :
    Option CachedPrefix × PrefixCache :=
  if s.config.enabled = false then (none, s)
  else (findEntry s.cache key, s)

/-- `PrefixCache::evict_lru`: drop the first key of `access_order`; if it
is still in the table, remove it and subtract its estimated size
(`saturating_sub`, i.e. `Nat` subtraction). -/
def PrefixCache.evictLru (s : PrefixCache) : PrefixCache :=
  match s.access_order with
  | [] => s
  | oldest :: rest =>
    match findEntry s.cache oldest with
    | some p =>
        { s with
          cache := removeEntry s.cache oldest
          current_memory_bytes :=
            s.current_memory_bytes - (p.tokens.length * 4 + 1024)
          access_order := rest }
    | none => { s with access_order := rest }

/-- The eviction loop of `PrefixCache::insert`:
`while current + estimated > budget && !access_order.is_empty() { evict_lru() }`.
Each iteration shortens `access_order` by one, so fuel
`access_order.length` makes the structural recursion exact. -/
def PrefixCache.evictLoop (est : Nat) : Nat → PrefixCache → PrefixCache
  | 0, s => s
  | f + 1, s =>
    if s.memory_budget_bytes < s.current_memory_bytes + est ∧ s.access_order ≠ [] then
      PrefixCache.evictLoop est f (PrefixCache.evictLru s)
    else s

/-- `PrefixCache::insert(key, tokens, _kv_cache)`.  Note the source ignores
the `_kv_cache` argument and stores `kv_cache: Vec::new()`, with
`access_count: 1` and the current instant. -/
def PrefixCache.insert (s : PrefixCache) (key : CacheKey) (tokens : List Nat)
    (_kvState : List CachedLayer) (now : Nat) : PrefixCache :=
  if s.config.enabled = false then s
  else
    let estimated_size := tokens.length * 4 + 1024
    let s1 := PrefixCache.evictLoop estimated_size s.access_order.length s
    if s1.memory_budget_bytes < s1.current_memory_bytes + estimated_size then s1
    else
      { s1 with
        current_memory_bytes := s1.current_memory_bytes + estimated_size
        cache := insertEntry s1.cache key
          { key := key, tokens := tokens, kv_cache := []
            access_count := 1, last_access := now }
        access_order := s1.access_order ++ [key] }

/-- `PrefixCache::touch(key)`: move the first occurrence of the key to the
back of `access_order`; absent keys are a no-op.  (The source performs no
enabled check here.) -/
def PrefixCache.touch (s : PrefixCache) (key : CacheKey) : PrefixCache :=
  match positionOf s.access_order key with
  | some pos => { s with access_order := s.access_order.eraseIdx pos ++ [key] }
  | none => s

/-- `PrefixCache::clear()`. -/
def PrefixCache.clear (s : PrefixCache) : PrefixCache :=
  { s with cache := [], access_order := [], current_memory_bytes := 0 }

/-- `PrefixCacheStats` (`hit_rate` is an `f64` in the source; the source
only ever produces the exact literal `0.0`, modelled as `(0 : Rat)`). -/
structure PrefixCacheStats where
  num_entries : Nat
  memory_used_mb : Nat
  memory_budget_mb : Nat
  hit_rate : Rat
deriving DecidableEq

/-- `PrefixCache::stats()`. -/
def PrefixCache.stats (s : PrefixCache) : PrefixCacheStats :=
  { num_entries := s.cache.length
    memory_used_mb := s.current_memory_bytes / (1024 * 1024)
    memory_budget_mb := s.config.memory_budget_mb
    hit_rate := 0 }

/-- One client-visible prefix-cache operation. -/
inductive CacheOp where
  | opInsert (key : CacheKey) (tokens : List Nat) (kv : List CachedLayer) (now : Nat)
  | opTouch (key : CacheKey)
  | opClear
  | opGet (key : CacheKey)
deriving DecidableEq

/-- Apply one operation to a cache state. -/
def PrefixCache.step (s : PrefixCache) : CacheOp → PrefixCache
  | .opInsert k t kv now => s.insert k t kv now
  | .opTouch k => s.touch k
  | .opClear => s.clear
  | .opGet k => (s.get k).2

/-- Run a sequence of operations. -/
def PrefixCache.runOps (s : PrefixCache) (ops : List CacheOp) : PrefixCache :=
  ops.foldl PrefixCache.step s

/-- Keys of the cache table. -/
def keysOf (c : List (CacheKey × CachedPrefix)) : List CacheKey :=
  c.map Prod.fst

/-- A cache state whose table keys are distinct and all listed in the
recency ordering.  This holds in every state reachable from
`PrefixCache.new` and is the well-formedness assumption of the theorems
that relate the table to the recency ordering. -/
def Consistent (s : PrefixCache) : Prop :=
  (keysOf s.cache).Nodup ∧ ∀ k ∈ keysOf s.cache, k ∈ s.access_order

instance (s : PrefixCache) : Decidable (Consistent s) := by
  unfold Consistent; infer_instance

/-! ### Association-list lemmas -/

theorem findEntry_eq_none {α β : Type} [DecidableEq α] (l : List (α × β)) (k : α) :
    findEntry l k = none ↔ k ∉ l.map Prod.fst := by
  induction l with
  | nil => simp [findEntry]
  | cons hd t ih =>
    obtain ⟨a, b⟩ := hd
    by_cases h : a = k
    · subst h; simp [findEntry]
    · simp [findEntry, h, ih, Ne.symm h]

theorem map_fst_removeEntry {α β : Type} [DecidableEq α] (l : List (α × β)) (k : α) :
    (removeEntry l k).map Prod.fst = (l.map Prod.fst).erase k := by
  induction l with
  | nil => simp [removeEntry]
  | cons hd t ih =>
    obtain ⟨a, b⟩ := hd
    by_cases h : a = k
    · subst h; simp [removeEntry, List.erase_cons]
    · simp [removeEntry, h, ih, List.erase_cons]

theorem findEntry_insertEntry_self {α β : Type} [DecidableEq α]
    (l : List (α × β)) (k : α) (v : β) :
    findEntry (insertEntry l k v) k = some v := by
  induction l with
  | nil => simp [insertEntry, findEntry]
  | cons hd t ih =>
    obtain ⟨a, b⟩ := hd
    by_cases h : a = k
    · simp [insertEntry, h, findEntry]
    · simp [insertEntry, h, findEntry, ih]

theorem removeEntry_eq_of_findEntry_none {α β : Type} [DecidableEq α]
    (l : List (α × β)) (k : α) (h : findEntry l k = none) : removeEntry l k = l := by
  induction l with
  | nil => rfl
  | cons hd t ih =>
    obtain ⟨a, b⟩ := hd
    by_cases hak : a = k
    · simp [findEntry, hak] at h
    · simp only [findEntry, if_neg hak] at h
      simp [removeEntry, hak, ih h]

theorem positionOf_eq_none {α : Type} [DecidableEq α] (l : List α) (k : α) :
    positionOf l k = none ↔ k ∉ l := by
  induction l with
  | nil => simp [positionOf]
  | cons a t ih =>
    by_cases h : a = k
    · simp [positionOf, h]
    · simp [positionOf, h, ih, Ne.symm h]

theorem positionOf_spec {α : Type} [DecidableEq α] (l : List α) (k : α) (h : k ∈ l) :
    ∃ i, positionOf l k = some i ∧ l.eraseIdx i = l.erase k := by
  induction l with
  | nil => cases h
  | cons a t ih =>
    by_cases hak : a = k
    · exact ⟨0, by simp [positionOf, hak], by simp [hak, List.erase_cons, List.eraseIdx]⟩
    · have hkt : k ∈ t := by
        rcases List.mem_cons.mp h with h1 | h1
        · exact absurd h1.symm hak
        · exact h1
      obtain ⟨i, hi, he⟩ := ih hkt
      exact ⟨i + 1, by simp [positionOf, hak, hi],
        by simp [List.eraseIdx, List.erase_cons, hak, he]⟩

theorem filter_erase_self {α : Type} [DecidableEq α] (l : List α) (k : α) :
    (l.erase k).filter (fun x => decide (x ≠ k)) =
      l.filter (fun x => decide (x ≠ k)) := by
  induction l with
  | nil => simp
  | cons a t ih =>
    by_cases h : a = k
    · subst h; simp [List.erase_cons]
    · have he : (a :: t).erase k = a :: t.erase k := by simp [List.erase_cons, h]
      rw [he, List.filter_cons, List.filter_cons, ih]

/-! ### Step lemmas for the prefix-cache operations -/

theorem evictLru_access_order (s : PrefixCache) :
    (s.evictLru).access_order = s.access_order.tail := by
  cases hs : s.access_order with
  | nil => simp [PrefixCache.evictLru, hs]
  | cons o rest =>
    simp only [PrefixCache.evictLru, hs]
    cases hf : findEntry s.cache o <;> simp

theorem evictLru_budget (s : PrefixCache) :
    (s.evictLru).memory_budget_bytes = s.memory_budget_bytes := by
  cases hs : s.access_order with
  | nil => simp [PrefixCache.evictLru, hs]
  | cons o rest =>
    simp only [PrefixCache.evictLru, hs]
    cases hf : findEntry s.cache o <;> simp

theorem evictLru_config (s : PrefixCache) : (s.evictLru).config = s.config := by
  cases hs : s.access_order with
  | nil => simp [PrefixCache.evictLru, hs]
  | cons o rest =>
    simp only [PrefixCache.evictLru, hs]
    cases hf : findEntry s.cache o <;> simp

theorem evictLru_cur_le (s : PrefixCache) :
    (s.evictLru).current_memory_bytes ≤ s.current_memory_bytes := by
  cases hs : s.access_order with
  | nil => simp [PrefixCache.evictLru, hs]
  | cons o rest =>
    simp only [PrefixCache.evictLru, hs]
    cases hf : findEntry s.cache o
    · simp
    · simp [Nat.sub_le]

theorem evictLru_cache (s : PrefixCache) (o : CacheKey) (rest : List CacheKey)
    (h : s.access_order = o :: rest) : (s.evictLru).cache = removeEntry s.cache o := by
  simp only [PrefixCache.evictLru, h]
  cases hf : findEntry s.cache o with
  | some p => simp
  | none => simp [removeEntry_eq_of_findEntry_none _ _ hf]

theorem evictLoop_budget (est f : Nat) (s : PrefixCache) :
    (PrefixCache.evictLoop est f s).memory_budget_bytes = s.memory_budget_bytes := by
  induction f generalizing s with
  | zero => rfl
  | succ f ih =>
    simp only [PrefixCache.evictLoop]
    split
    · rw [ih, evictLru_budget]
    · rfl

theorem evictLoop_config (est f : Nat) (s : PrefixCache) :
    (PrefixCache.evictLoop est f s).config = s.config := by
  induction f generalizing s with
  | zero => rfl
  | succ f ih =>
    simp only [PrefixCache.evictLoop]
    split
    · rw [ih, evictLru_config]
    · rfl

theorem evictLoop_cur_le (est f : Nat) (s : PrefixCache) :
    (PrefixCache.evictLoop est f s).current_memory_bytes ≤ s.current_memory_bytes := by
  induction f generalizing s with
  | zero => exact Nat.le_refl _
  | succ f ih =>
    simp only [PrefixCache.evictLoop]
    split
    · exact Nat.le_trans (ih _) (evictLru_cur_le s)
    · exact Nat.le_refl _

theorem evictLoop_post (est f : Nat) (s : PrefixCache)
    (hf : s.access_order.length ≤ f) :
    ¬((PrefixCache.evictLoop est f s).memory_budget_bytes <
        (PrefixCache.evictLoop est f s).current_memory_bytes + est) ∨
      (PrefixCache.evictLoop est f s).access_order = [] := by
  induction f generalizing s with
  | zero =>
    right
    exact List.length_eq_zero.mp (Nat.le_zero.mp hf)
  | succ f ih =>
    simp only [PrefixCache.evictLoop]
    split
    · next hcond =>
      apply ih
      rw [evictLru_access_order, List.length_tail]
      have hne := hcond.2
      have : s.access_order.length ≠ 0 := by
        intro h0
        exact hne (List.length_eq_zero.mp h0)
      omega
    · next hcond =>
      rcases not_and_or.mp hcond with h | h
      · exact Or.inl h
      · exact Or.inr (not_not.mp h)

theorem evictLru_consistent (s : PrefixCache) (h : Consistent s) :
    Consistent (s.evictLru) := by
  obtain ⟨hnd, hsub⟩ := h
  cases hs : s.access_order with
  | nil =>
    have heq : s.evictLru = s := by
      simp [PrefixCache.evictLru, hs]
    rw [heq]
    exact ⟨hnd, hsub⟩
  | cons o rest =>
    have hcache := evictLru_cache s o rest hs
    have horder := evictLru_access_order s
    rw [hs] at horder
    constructor
    · show ((s.evictLru).cache.map Prod.fst).Nodup
      rw [hcache, map_fst_removeEntry]
      exact hnd.erase o
    · intro k hk
      rw [show keysOf (s.evictLru).cache = (keysOf s.cache).erase o from by
        simp only [keysOf]; rw [hcache, map_fst_removeEntry]] at hk
      obtain ⟨hko, hkmem⟩ := (List.Nodup.mem_erase_iff hnd).mp hk
      have := hsub k hkmem
      rw [hs] at this
      rw [horder]
      rcases List.mem_cons.mp this with h1 | h1
      · exact absurd h1 hko
      · exact h1

theorem evictLoop_consistent (est f : Nat) (s : PrefixCache) (h : Consistent s) :
    Consistent (PrefixCache.evictLoop est f s) := by
  induction f generalizing s with
  | zero => exact h
  | succ f ih =>
    simp only [PrefixCache.evictLoop]
    split
    · exact ih _ (evictLru_consistent s h)
    · exact h

theorem evictLoop_drop_take (est f : Nat) (s : PrefixCache) :
    ∃ n, (PrefixCache.evictLoop est f s).access_order = s.access_order.drop n ∧
      (PrefixCache.evictLoop est f s).cache =
        (s.access_order.take n).foldl removeEntry s.cache := by
  induction f generalizing s with
  | zero => exact ⟨0, by simp [PrefixCache.evictLoop], by simp [PrefixCache.evictLoop]⟩
  | succ f ih =>
    simp only [PrefixCache.evictLoop]
    split
    · next hcond =>
      obtain ⟨o, rest, hs⟩ := List.exists_cons_of_ne_nil hcond.2
      obtain ⟨n, h1, h2⟩ := ih (s.evictLru)
      refine ⟨n + 1, ?_, ?_⟩
      · rw [h1, evictLru_access_order, hs]
        rfl
      · rw [h2, evictLru_cache s o rest hs, evictLru_access_order, hs]
        rfl
    · exact ⟨0, by simp, by simp⟩

theorem evictLoop_of_fit (est f : Nat) (s : PrefixCache)
    (h : ¬(s.memory_budget_bytes < s.current_memory_bytes + est)) :
    PrefixCache.evictLoop est f s = s := by
  cases f with
  | zero => rfl
  | succ f => simp [PrefixCache.evictLoop, h]

theorem get_state (s : PrefixCache) (k : CacheKey) : (s.get k).2 = s := by
  unfold PrefixCache.get
  split <;> rfl

theorem touch_of_not_mem (s : PrefixCache) (k : CacheKey)
    (h : k ∉ s.access_order) : s.touch k = s := by
  unfold PrefixCache.touch
  rw [(positionOf_eq_none _ _).mpr h]

theorem touch_order_of_mem (s : PrefixCache) (k : CacheKey)
    (h : k ∈ s.access_order) :
    (s.touch k).access_order = s.access_order.erase k ++ [k] := by
  obtain ⟨i, hi, he⟩ := positionOf_spec _ _ h
  unfold PrefixCache.touch
  rw [hi]
  simp [he]

theorem touch_frame (s : PrefixCache) (k : CacheKey) :
    (s.touch k).cache = s.cache ∧
      (s.touch k).current_memory_bytes = s.current_memory_bytes ∧
      (s.touch k).memory_budget_bytes = s.memory_budget_bytes ∧
      (s.touch k).config = s.config := by
  unfold PrefixCache.touch
  split <;> exact ⟨rfl, rfl, rfl, rfl⟩

/-! ### Budget accounting across operations -/

theorem step_budget (s : PrefixCache) (op : CacheOp) :
    (s.step op).memory_budget_bytes = s.memory_budget_bytes := by
  cases op with
  | opInsert k t kv now =>
    simp only [PrefixCache.step, PrefixCache.insert]
    split
    · rfl
    · split
      · exact evictLoop_budget _ _ _
      · simp [evictLoop_budget]
  | opTouch k => exact (touch_frame s k).2.2.1
  | opClear => rfl
  | opGet k => rw [PrefixCache.step, get_state]

theorem step_cur_le (s : PrefixCache) (op : CacheOp)
    (h : s.current_memory_bytes ≤ s.memory_budget_bytes) :
    (s.step op).current_memory_bytes ≤ (s.step op).memory_budget_bytes := by
  cases op with
  | opInsert k t kv now =>
    simp only [PrefixCache.step, PrefixCache.insert]
    split
    · exact h
    · split
      · next hover =>
        calc (PrefixCache.evictLoop _ _ s).current_memory_bytes
            ≤ s.current_memory_bytes := evictLoop_cur_le _ _ _
          _ ≤ s.memory_budget_bytes := h
          _ = _ := (evictLoop_budget _ _ _).symm
      · next hfit =>
        simp only
        rw [evictLoop_budget] at hfit ⊢
        exact Nat.not_lt.mp hfit
  | opTouch k =>
    show (s.touch k).current_memory_bytes ≤ (s.touch k).memory_budget_bytes
    rw [(touch_frame s k).2.1, (touch_frame s k).2.2.1]
    exact h
  | opClear => exact Nat.zero_le _
  | opGet k => rw [PrefixCache.step, get_state]; exact h

theorem runOps_budget (ops : List CacheOp) (s : PrefixCache) :
    (PrefixCache.runOps s ops).memory_budget_bytes = s.memory_budget_bytes := by
  induction ops generalizing s with
  | nil => rfl
  | cons op ops ih =>
    simp only [PrefixCache.runOps, List.foldl_cons]
    exact (ih (s.step op)).trans (step_budget s op)

theorem runOps_append (s : PrefixCache) (l1 l2 : List CacheOp) :
    PrefixCache.runOps s (l1 ++ l2) =
      PrefixCache.runOps (PrefixCache.runOps s l1) l2 := by
  simp [PrefixCache.runOps, List.foldl_append]

theorem runOps_cur_le (ops : List CacheOp) (s : PrefixCache)
    (h : s.current_memory_bytes ≤ s.memory_budget_bytes) :
    (PrefixCache.runOps s ops).current_memory_bytes ≤
      (PrefixCache.runOps s ops).memory_budget_bytes := by
  induction ops generalizing s with
  | nil => exact h
  | cons op ops ih =>
    simp only [PrefixCache.runOps, List.foldl_cons]
    exact ih (s.step op) (step_cur_le s op h)

/-- `insert` in the one-eviction regime: the new entry does not fit, but
fits after evicting exactly the single least-recently-used key `o`.  The
result removes `o`, stores the new entry, and pushes its key to the back
of the recency ordering. -/
theorem insert_single_eviction (s : PrefixCache) (key : CacheKey)
    (tokens : List Nat) (kv : List CachedLayer) (now : Nat)
    (o : CacheKey) (rest : List CacheKey) (eo : CachedPrefix)
    (hen : s.config.enabled = true)
    (hord : s.access_order = o :: rest)
    (hfind : findEntry s.cache o = some eo)
    (hover : s.memory_budget_bytes <
      s.current_memory_bytes + (tokens.length * 4 + 1024))
    (hfit : s.current_memory_bytes - (eo.tokens.length * 4 + 1024) +
        (tokens.length * 4 + 1024) ≤ s.memory_budget_bytes) :
    PrefixCache.insert s key tokens kv now =
      { s with
        cache := insertEntry (removeEntry s.cache o) key
          { key := key, tokens := tokens, kv_cache := []
            access_count := 1, last_access := now }
        access_order := rest ++ [key]
        current_memory_bytes :=
          s.current_memory_bytes - (eo.tokens.length * 4 + 1024) +
            (tokens.length * 4 + 1024) } := by
  have hlru : s.evictLru =
      { s with
        cache := removeEntry s.cache o
        current_memory_bytes :=
          s.current_memory_bytes - (eo.tokens.length * 4 + 1024)
        access_order := rest } := by
    simp only [PrefixCache.evictLru, hord, hfind]
  have hloop : PrefixCache.evictLoop (tokens.length * 4 + 1024)
      s.access_order.length s = s.evictLru := by
    rw [hord]
    simp only [List.length_cons, PrefixCache.evictLoop]
    rw [if_pos ⟨hover, by rw [hord]; exact List.cons_ne_nil o rest⟩]
    apply evictLoop_of_fit
    rw [hlru]
    simpa using Nat.not_lt.mpr hfit
  unfold PrefixCache.insert
  rw [if_neg (by simp [hen])]
  simp only [hloop, hlru]
  rw [if_neg (by simpa using Nat.not_lt.mpr hfit)]

/-! ### Paged KV cache (modelled from the spec) -/

/-- Modelled from the spec: `paged_cache` is declared in
`src/inference/mod.rs` (exporting `PagedAttentionConfig` and
`PagedKvCache`) but `src/inference/paged_cache.rs` itself is not in the
repository snapshot.  Configuration per spec section 4.1ff: a fixed block
pool, a maximum number of concurrent sequences, and a fixed per-block
position capacity. -/
structure PagedAttentionConfig where
  pool_size : Nat
  max_seqs : Nat
  block_capacity : Nat

/-- Modelled from the spec: the paged KV cache state.  Block identity is
irrelevant to the blocks-in-use bound, so each sequence's block table is
modelled by its block count and the Block Store by its free-block count. -/
structure PagedKvCache where
  config : PagedAttentionConfig
  free_blocks : Nat
  tables : List (Nat × Nat)

/-- Modelled from the spec: a fresh cache owns the whole pool as free
blocks and has no registered sequences. -/
def PagedKvCache.new (config : PagedAttentionConfig) : PagedKvCache :=
  { config := config, free_blocks := config.pool_size, tables := [] }

/-- Blocks required to hold the given number of positions. -/
def blocksNeeded (cap positions : Nat) : Nat :=
  (positions + cap - 1) / cap

/-- Modelled from the spec: `allocate(sequence_id)` registers a new
sequence with an empty block table; reaching the configured maximum
concurrent sequences fails with `CapacityExceeded`, leaving the state
unchanged. -/
def PagedKvCache.allocate (s : PagedKvCache) (sid : Nat) : PagedKvCache :=
  if (findEntry s.tables sid).isSome then s
  else if s.config.max_seqs ≤ s.tables.length then s
  else { s with tables := s.tables ++ [(sid, 0)] }

/-- Modelled from the spec: `ensure_capacity(sequence_id, num_positions)`
grows the sequence's table by allocating blocks from the Block Store until
it can hold `num_positions`; if the store lacks enough free blocks it
fails with `OutOfMemory` and leaves the requesting sequence unchanged. -/
def PagedKvCache.ensure_capacity (s : PagedKvCache) (sid positions : Nat) :
    PagedKvCache :=
  match findEntry s.tables sid with
  | none => s
  | some owned =>
    let need := blocksNeeded s.config.block_capacity positions
    if need ≤ owned then s
    else if need - owned ≤ s.free_blocks then
      { s with
        free_blocks := s.free_blocks - (need - owned)
        tables := insertEntry s.tables sid need }
    else s

/-- Modelled from the spec: `release(sequence_id)` returns all blocks of
the sequence's table to the free list; releasing an unknown or
already-released sequence is a no-op. -/
def PagedKvCache.release (s : PagedKvCache) (sid : Nat) : PagedKvCache :=
  match findEntry s.tables sid with
  | none => s
  | some owned =>
    { s with
      free_blocks := s.free_blocks + owned
      tables := removeEntry s.tables sid }

/-- Total blocks currently referenced by sequence block tables. -/
def PagedKvCache.blocksInUse (s : PagedKvCache) : Nat :=
  (s.tables.map Prod.snd).sum

/-- One paged-cache operation. -/
inductive PagedOp where
  | opAllocate (sid : Nat)
  | opEnsure (sid positions : Nat)
  | opRelease (sid : Nat)

/-- Apply one paged-cache operation. -/
def PagedKvCache.step (s : PagedKvCache) : PagedOp → PagedKvCache
  | .opAllocate sid => s.allocate sid
  | .opEnsure sid positions => s.ensure_capacity sid positions
  | .opRelease sid => s.release sid

/-- Run a sequence of paged-cache operations. -/
def PagedKvCache.runOps (s : PagedKvCache) (ops : List PagedOp) : PagedKvCache :=
  ops.foldl PagedKvCache.step s

theorem sum_snd_insertEntry {α : Type} [DecidableEq α]
    (l : List (α × Nat)) (k : α) (v b : Nat) (h : findEntry l k = some b) :
    ((insertEntry l k v).map Prod.snd).sum + b = (l.map Prod.snd).sum + v := by
  induction l with
  | nil => simp [findEntry] at h
  | cons hd t ih =>
    obtain ⟨a, c⟩ := hd
    by_cases hak : a = k
    · simp only [findEntry, if_pos hak] at h
      obtain rfl : c = b := Option.some.inj h
      simp [insertEntry, hak]
      omega
    · simp only [findEntry, if_neg hak] at h
      simp only [insertEntry, if_neg hak, List.map_cons, List.sum_cons]
      have := ih h
      omega

theorem sum_snd_removeEntry {α : Type} [DecidableEq α]
    (l : List (α × Nat)) (k : α) (b : Nat) (h : findEntry l k = some b) :
    ((removeEntry l k).map Prod.snd).sum + b = (l.map Prod.snd).sum := by
  induction l with
  | nil => simp [findEntry] at h
  | cons hd t ih =>
    obtain ⟨a, c⟩ := hd
    by_cases hak : a = k
    · simp only [findEntry, if_pos hak] at h
      obtain rfl : c = b := Option.some.inj h
      simp [removeEntry, hak]
      omega
    · simp only [findEntry, if_neg hak] at h
      simp only [removeEntry, if_neg hak, List.map_cons, List.sum_cons]
      have := ih h
      omega

theorem paged_step_inv (s : PagedKvCache) (op : PagedOp)
    (h : s.blocksInUse + s.free_blocks = s.config.pool_size) :
    (s.step op).blocksInUse + (s.step op).free_blocks =
        (s.step op).config.pool_size ∧
      (s.step op).config = s.config := by
  cases op with
  | opAllocate sid =>
    simp only [PagedKvCache.step, PagedKvCache.allocate]
    split
    · exact ⟨h, rfl⟩
    · split
      · exact ⟨h, rfl⟩
      · refine ⟨?_, rfl⟩
        simp only [PagedKvCache.blocksInUse, List.map_append, List.sum_append]
        simpa using h
  | opEnsure sid positions =>
    simp only [PagedKvCache.step, PagedKvCache.ensure_capacity]
    cases hf : findEntry s.tables sid with
    | none => exact ⟨h, rfl⟩
    | some owned =>
      simp only
      split
      · exact ⟨h, rfl⟩
      · split
        · next hgrow =>
          refine ⟨?_, rfl⟩
          simp only [PagedKvCache.blocksInUse] at h ⊢
          have hsum := sum_snd_insertEntry s.tables sid
            (blocksNeeded s.config.block_capacity positions) owned hf
          omega
        · exact ⟨h, rfl⟩
  | opRelease sid =>
    simp only [PagedKvCache.step, PagedKvCache.release]
    cases hf : findEntry s.tables sid with
    | none => exact ⟨h, rfl⟩
    | some owned =>
      refine ⟨?_, rfl⟩
      simp only [PagedKvCache.blocksInUse] at h ⊢
      have hsum := sum_snd_removeEntry s.tables sid owned hf
      omega

theorem paged_runOps_inv (ops : List PagedOp) (s : PagedKvCache)
    (h : s.blocksInUse + s.free_blocks = s.config.pool_size) :
    (PagedKvCache.runOps s ops).blocksInUse +
        (PagedKvCache.runOps s ops).free_blocks =
        (PagedKvCache.runOps s ops).config.pool_size ∧
      (PagedKvCache.runOps s ops).config = s.config := by
  induction ops generalizing s with
  | nil => exact ⟨h, rfl⟩
  | cons op ops ih =>
    simp only [PagedKvCache.runOps, List.foldl_cons]
    obtain ⟨h1, h2⟩ := paged_step_inv s op h
    obtain ⟨h3, h4⟩ := ih (s.step op) h1
    exact ⟨h3, h4.trans h2⟩

/-! ### Sample keys, entries and states for concrete instantiations -/

def kA : CacheKey := ⟨1, 0, 0⟩

def kB : CacheKey := ⟨2, 0, 0⟩

def kM : CacheKey := ⟨3, 0, 0⟩

def eA : CachedPrefix := ⟨kA, [0], [], 1, 0⟩

def eB : CachedPrefix := ⟨kB, [0], [], 1, 0⟩

def eA1 : CachedPrefix := ⟨kA, [0], [], 1, 1⟩

def eB2 : CachedPrefix := ⟨kB, [0], [], 1, 2⟩

/-- A two-entry cache (1 MB budget, both entries of one token). -/
def sAB : PrefixCache := ⟨⟨1, true⟩, [(kA, eA), (kB, eB)], [kA, kB], 2056, 1048576⟩

/-- A one-entry cache whose budget admits the stored entry and one more
eviction-sized entry, but not both. -/
def sOne : PrefixCache := ⟨⟨0, true⟩, [(kA, eA)], [kA], 1028, 2000⟩

/-- The state reached from a fresh 1 MB cache by
`insert kA; insert kA; insert kB; touch kA` — note the duplicated `kA`
in the recency ordering caused by re-inserting a cached key. -/
def s4val : PrefixCache :=
  ⟨⟨1, true⟩, [(kA, eA1), (kB, eB2)], [kA, kB, kA], 3084, 1048576⟩

/-! ### Claims -/

/-- C1: for every sequence of insert, touch, clear (and get) operations on
a prefix cache constructed with a memory budget of B bytes, the
`current_memory_bytes` accounting is at most B after each operation
completes. -/
theorem claim_c1_budget_invariant (cfg : PrefixCacheConfig) (ops : List CacheOp) :
    (PrefixCache.runOps (PrefixCache.new cfg) ops).current_memory_bytes ≤
      (PrefixCache.new cfg).memory_budget_bytes := by
  have h := runOps_cur_le ops (PrefixCache.new cfg) (Nat.zero_le _)
  rwa [runOps_budget] at h

/-- C2 (amended): the eviction loop of `insert` removes keys one at a time
from the front of the recency ordering — the evicted keys are exactly a
leading prefix of `access_order`, the table loses exactly those keys, and
the loop stops as soon as the footprint fits or the ordering is empty;
when the recency ordering lists each key at most once (i.e. no key was
re-inserted while cached), a touched key is not at the front (hence not
the next eviction victim) while another key remains, and inserting an
entry that fits after exactly one eviction removes exactly the
least-recently-used key. -/
theorem claim_c2_lru_eviction :
    (∀ (s : PrefixCache) (est : Nat), ∃ n,
      (PrefixCache.evictLoop est s.access_order.length s).access_order =
          s.access_order.drop n ∧
        (PrefixCache.evictLoop est s.access_order.length s).cache =
          (s.access_order.take n).foldl removeEntry s.cache ∧
        (¬((PrefixCache.evictLoop est s.access_order.length s).memory_budget_bytes <
            (PrefixCache.evictLoop est s.access_order.length s).current_memory_bytes
              + est) ∨
          (PrefixCache.evictLoop est s.access_order.length s).access_order = [])) ∧
    (∀ (s : PrefixCache) (k k2 : CacheKey), s.access_order.Nodup →
        k2 ∈ s.access_order → k2 ≠ k →
        (s.touch k).access_order.head? ≠ some k) ∧
    (∀ (s : PrefixCache) (key : CacheKey) (tokens : List Nat)
        (kv : List CachedLayer) (now : Nat) (o : CacheKey)
        (rest : List CacheKey) (eo : CachedPrefix),
        s.config.enabled = true →
        s.access_order = o :: rest →
        findEntry s.cache o = some eo →
        s.memory_budget_bytes < s.current_memory_bytes +
          (tokens.length * 4 + 1024) →
        s.current_memory_bytes - (eo.tokens.length * 4 + 1024) +
            (tokens.length * 4 + 1024) ≤ s.memory_budget_bytes →
        PrefixCache.insert s key tokens kv now =
          { s with
            cache := insertEntry (removeEntry s.cache o) key
              { key := key, tokens := tokens, kv_cache := []
                access_count := 1, last_access := now }
            access_order := rest ++ [key]
            current_memory_bytes :=
              s.current_memory_bytes - (eo.tokens.length * 4 + 1024) +
                (tokens.length * 4 + 1024) }) := by
  refine ⟨?_, ?_, ?_⟩
  · intro s est
    obtain ⟨n, h1, h2⟩ := evictLoop_drop_take est s.access_order.length s
    exact ⟨n, h1, h2, evictLoop_post est _ s (Nat.le_refl _)⟩
  · intro s k k2 hnd hmem hne
    by_cases hk : k ∈ s.access_order
    · rw [touch_order_of_mem s k hk]
      have hk2e : k2 ∈ s.access_order.erase k :=
        (List.Nodup.mem_erase_iff hnd).mpr ⟨hne, hmem⟩
      cases he : s.access_order.erase k with
      | nil => rw [he] at hk2e; cases hk2e
      | cons e es =>
        have hee : e ∈ s.access_order.erase k := by
          rw [he]; exact List.mem_cons_self e es
        have hek : e ≠ k := ((List.Nodup.mem_erase_iff hnd).mp hee).1
        simp [hek]
    · rw [touch_of_not_mem s k hk]
      cases ho : s.access_order with
      | nil => simp
      | cons a t =>
        have hak : a ≠ k := by
          intro heq
          subst heq
          exact hk (by rw [ho]; exact List.mem_cons_self a t)
        simp [hak]
  · intro s key tokens kv now o rest eo hen hord hfind hover hfit
    exact insert_single_eviction s key tokens kv now o rest eo
      hen hord hfind hover hfit

/-- C2 counterexample to the claim as stated: starting from a fresh 1 MB
cache, `insert kA; insert kA; insert kB; touch kA` reaches `s4val`, whose
recency ordering is `[kA, kB, kA]` (re-inserting the cached `kA`
duplicated it); the next insert (one needing a single eviction) then
evicts `kA` — the key touched most recently — while the strictly staler
`kB` survives, refuting the touch-protection part of the claim. -/
theorem claim_c2_counterexample :
    PrefixCache.runOps (PrefixCache.new ⟨1, true⟩)
        [CacheOp.opInsert kA [0] [] 0, CacheOp.opInsert kA [0] [] 1,
         CacheOp.opInsert kB [0] [] 2, CacheOp.opTouch kA] = s4val ∧
    ((PrefixCache.insert s4val kM (List.replicate 261374 0) [] 3).get kA).1
      = none ∧
    (((PrefixCache.insert s4val kM (List.replicate 261374 0) [] 3).get kB).1).isSome
      = true := by
  refine ⟨by decide, ?_⟩
  have h5 := insert_single_eviction s4val kM (List.replicate 261374 0) [] 3
    kA [kB, kA] eA1 rfl rfl (by decide)
    (by rw [List.length_replicate]; decide)
    (by rw [List.length_replicate]; decide)
  rw [h5]
  exact ⟨by decide, by decide⟩

/-- C2 witness: concrete instantiations of the touch-protection part (on
the duplicate-free two-entry state `sAB`) and of the single-eviction part
(on the one-entry state `sOne`). -/
theorem claim_c2_witness :
    (sAB.access_order.Nodup ∧ kB ∈ sAB.access_order ∧ kB ≠ kA ∧
      (sAB.touch kA).access_order.head? ≠ some kA) ∧
    (sOne.config.enabled = true ∧ sOne.access_order = kA :: [] ∧
      findEntry sOne.cache kA = some eA ∧
      sOne.memory_budget_bytes < sOne.current_memory_bytes +
        (([0] : List Nat).length * 4 + 1024) ∧
      sOne.current_memory_bytes - (eA.tokens.length * 4 + 1024) +
          (([0] : List Nat).length * 4 + 1024) ≤ sOne.memory_budget_bytes ∧
      PrefixCache.insert sOne kM [0] [] 5 =
        { sOne with
          cache := insertEntry (removeEntry sOne.cache kA) kM
            { key := kM, tokens := [0], kv_cache := []
              access_count := 1, last_access := 5 }
          access_order := [] ++ [kM]
          current_memory_bytes :=
            sOne.current_memory_bytes - (eA.tokens.length * 4 + 1024) +
              (([0] : List Nat).length * 4 + 1024) }) :=
  ⟨⟨by decide, by decide, by decide,
      claim_c2_lru_eviction.2.1 sAB kA kB (by decide) (by decide) (by decide)⟩,
    ⟨rfl, rfl, by decide, by decide, by decide,
      claim_c2_lru_eviction.2.2 sOne kM [0] [] 5 kA [] eA rfl rfl
        (by decide) (by decide) (by decide)⟩⟩

/-- C3 counterexample: inserting with a nonempty key/value state and then
looking the key up returns an entry whose `kv_cache` is empty — the
`_kv_cache` argument of `insert` is discarded (the source stores
`Vec::new()`), so `get` does not carry the kv state passed to `insert`. -/
theorem claim_c3_counterexample :
    (((PrefixCache.new ⟨512, true⟩).insert ⟨1, 2, 3⟩ [1, 2, 3]
          [⟨5, 7⟩] 0).get ⟨1, 2, 3⟩).1.map CachedPrefix.kv_cache = some [] ∧
      ([] : List CachedLayer) ≠ [⟨5, 7⟩] := by
  exact ⟨by decide, by decide⟩

/-- C3 (amended): on an enabled cache, whenever the estimated footprint
fits after the eviction loop, `insert` stores the key and token list but
discards the passed key/value state: a subsequent `get` of the key returns
the stored entry with the inserted tokens, an empty `kv_cache`, access
count 1, and the insertion instant. -/
theorem claim_c3_insert_discards_kv (s : PrefixCache) (key : CacheKey)
    (tokens : List Nat) (kv : List CachedLayer) (now : Nat)
    (hen : s.config.enabled = true)
    (hfit : ¬((PrefixCache.evictLoop (tokens.length * 4 + 1024)
          s.access_order.length s).memory_budget_bytes <
        (PrefixCache.evictLoop (tokens.length * 4 + 1024)
          s.access_order.length s).current_memory_bytes +
          (tokens.length * 4 + 1024))) :
    ((s.insert key tokens kv now).get key).1 =
      some { key := key, tokens := tokens, kv_cache := []
             access_count := 1, last_access := now } := by
  unfold PrefixCache.insert
  rw [if_neg (by simp [hen])]
  simp only
  rw [if_neg hfit]
  unfold PrefixCache.get
  rw [if_neg (by simp [evictLoop_config, hen])]
  simp only
  exact findEntry_insertEntry_self _ _ _

/-- C3 witness: concrete instantiation of the amended claim on a fresh
512 MB cache. -/
theorem claim_c3_witness :
    ((PrefixCache.new ⟨512, true⟩).config.enabled = true) ∧
    (((PrefixCache.new ⟨512, true⟩).insert ⟨1, 2, 3⟩ [1, 2, 3]
        [⟨5, 7⟩] 0).get ⟨1, 2, 3⟩).1 =
      some { key := ⟨1, 2, 3⟩, tokens := [1, 2, 3], kv_cache := []
             access_count := 1, last_access := 0 } :=
  ⟨rfl, claim_c3_insert_discards_kv (PrefixCache.new ⟨512, true⟩)
    ⟨1, 2, 3⟩ [1, 2, 3] [⟨5, 7⟩] 0 rfl (by decide)⟩

/-- C4: if the new entry's estimated footprint exceeds the memory budget
(so it cannot fit even after the eviction loop empties the table), insert
completes as a silent no-op for the new entry and a subsequent get of its
key misses.  `Consistent` is the reachable-state well-formedness tying the
table to the recency ordering. -/
theorem claim_c4_oversized_insert_miss (s : PrefixCache) (key : CacheKey)
    (tokens : List Nat) (kv : List CachedLayer) (now : Nat)
    (hcons : Consistent s)
    (hbig : s.memory_budget_bytes < tokens.length * 4 + 1024) :
    ((s.insert key tokens kv now).get key).1 = none := by
  by_cases hen : s.config.enabled = false
  · unfold PrefixCache.insert
    rw [if_pos hen]
    unfold PrefixCache.get
    rw [if_pos hen]
  · unfold PrefixCache.insert
    rw [if_neg hen]
    simp only
    have horder : (PrefixCache.evictLoop (tokens.length * 4 + 1024)
        s.access_order.length s).access_order = [] := by
      rcases evictLoop_post (tokens.length * 4 + 1024)
          s.access_order.length s (Nat.le_refl _) with h | h
      · exfalso
        apply h
        rw [evictLoop_budget]
        exact Nat.lt_of_lt_of_le hbig (Nat.le_add_left _ _)
      · exact h
    have hcache : (PrefixCache.evictLoop (tokens.length * 4 + 1024)
        s.access_order.length s).cache = [] := by
      have hc := evictLoop_consistent (tokens.length * 4 + 1024)
        s.access_order.length s hcons
      have hkeys : keysOf (PrefixCache.evictLoop (tokens.length * 4 + 1024)
          s.access_order.length s).cache = [] := by
        apply List.eq_nil_iff_forall_not_mem.mpr
        intro k hk
        have := hc.2 k hk
        rw [horder] at this
        cases this
      exact List.map_eq_nil_iff.mp hkeys
    rw [if_pos (by
      rw [evictLoop_budget]
      exact Nat.lt_of_lt_of_le hbig (Nat.le_add_left _ _))]
    unfold PrefixCache.get
    rw [if_neg (by simp [evictLoop_config, hen])]
    rw [hcache]
    rfl

/-- C4 witness: a fresh cache with budget 0 MB rejects even an empty-token
entry (footprint 1024 bytes) and a subsequent get misses. -/
theorem claim_c4_witness :
    Consistent (PrefixCache.new ⟨0, true⟩) ∧
    (PrefixCache.new ⟨0, true⟩).memory_budget_bytes <
      ([] : List Nat).length * 4 + 1024 ∧
    (((PrefixCache.new ⟨0, true⟩).insert ⟨9, 9, 9⟩ [] [] 0).get ⟨9, 9, 9⟩).1
      = none :=
  ⟨by decide, by decide,
    claim_c4_oversized_insert_miss (PrefixCache.new ⟨0, true⟩) ⟨9, 9, 9⟩
      [] [] 0 (by decide) (by decide)⟩

/-- C5: touching a present key moves it to the most-recently-used (last)
position of the recency ordering, preserves the relative order of all
other keys (and the multiset of keys); touching an absent key leaves the
state unchanged. -/
theorem claim_c5_touch_moves_to_back (s : PrefixCache) (k : CacheKey) :
    (k ∈ s.access_order →
        (s.touch k).access_order.getLast? = some k ∧
        (s.touch k).access_order.filter (fun x => decide (x ≠ k)) =
          s.access_order.filter (fun x => decide (x ≠ k)) ∧
        (s.touch k).access_order.Perm s.access_order) ∧
    (k ∉ s.access_order → s.touch k = s) := by
  constructor
  · intro h
    rw [touch_order_of_mem s k h]
    refine ⟨?_, ?_, ?_⟩
    · exact List.getLast?_concat _
    · rw [List.filter_append, filter_erase_self]
      simp
    · exact (List.perm_append_singleton _ _).trans
        (List.perm_cons_erase h).symm
  · exact touch_of_not_mem s k

/-- C5 witness: on the two-entry state `sAB`, touching the present `kA`
moves it to the back; touching the absent `kM` is the identity. -/
theorem claim_c5_witness :
    (kA ∈ sAB.access_order ∧
      (sAB.touch kA).access_order.getLast? = some kA ∧
      (sAB.touch kA).access_order.filter (fun x => decide (x ≠ kA)) =
        sAB.access_order.filter (fun x => decide (x ≠ kA)) ∧
      (sAB.touch kA).access_order.Perm sAB.access_order) ∧
    (kM ∉ sAB.access_order ∧ sAB.touch kM = sAB) :=
  ⟨⟨by decide, (claim_c5_touch_moves_to_back sAB kA).1 (by decide)⟩,
    ⟨by decide, (claim_c5_touch_moves_to_back sAB kM).2 (by decide)⟩⟩

/-- C6: a lookup never mutates the cache — for every key, hit or miss,
the state component returned by `get` (the receiver is `&self` in the
source) is the unchanged input state: recency ordering, table, memory
accounting and all stored entries (including access counters) are
untouched. -/
theorem claim_c6_get_is_pure (s : PrefixCache) (k : CacheKey) :
    (s.get k).2 = s :=
  get_state s k

/-- C7: for all sequences of allocate / ensure_capacity / release
operations on the paged KV cache, the total number of blocks in use never
exceeds the configured block pool size.  (The paged cache is modelled from
the spec; its source file is absent from the repository snapshot.) -/
theorem claim_c7_block_pool_bound (cfg : PagedAttentionConfig)
    (ops : List PagedOp) :
    (PagedKvCache.runOps (PagedKvCache.new cfg) ops).blocksInUse ≤
      cfg.pool_size := by
  have h0 : (PagedKvCache.new cfg).blocksInUse +
      (PagedKvCache.new cfg).free_blocks =
      (PagedKvCache.new cfg).config.pool_size := by
    simp [PagedKvCache.new, PagedKvCache.blocksInUse]
  obtain ⟨h1, h2⟩ := paged_runOps_inv ops (PagedKvCache.new cfg) h0
  have hc : (PagedKvCache.runOps (PagedKvCache.new cfg) ops).config = cfg := h2
  rw [hc] at h1
  omega

/-- C8: `CacheKey::new` is deterministic — two constructions from
identical prompt, optional system prompt and model configuration yield
structurally equal keys. -/
theorem claim_c8_cachekey_deterministic (p : String) (sys : Option String)
    (c : String) :
    CacheKey.new p sys c = CacheKey.new p sys c := rfl

/-- C9: an absent system prompt and an empty-string system prompt produce
the same cache key (`system_prompt.unwrap_or("")` erases the
distinction), so lookups with one hit entries inserted with the other. -/
theorem claim_c9_none_system_eq_empty (p c : String) :
    CacheKey.new p none c = CacheKey.new p (some "") c := rfl

/-- C10: in every state reachable by get/insert/touch/clear operations,
`stats` reports a hit rate of exactly 0 (the source hardwires the literal
`0.0`) and an entry count equal to the number of entries in the cache
table. -/
theorem claim_c10_stats_hit_rate_zero (cfg : PrefixCacheConfig)
    (ops : List CacheOp) :
    (PrefixCache.runOps (PrefixCache.new cfg) ops).stats.hit_rate = 0 ∧
    (PrefixCache.runOps (PrefixCache.new cfg) ops).stats.num_entries =
      (PrefixCache.runOps (PrefixCache.new cfg) ops).cache.length :=
  ⟨rfl, rfl⟩

end Oxide
